import Mathlib

/-!
# Verification of `src/fifth.rs`: a singly-linked FIFO queue with a cached tail pointer

The Rust source implements a queue as an owned singly-linked chain of
heap-allocated nodes (`head : Option<Box<Node<T>>>`) together with a raw,
non-owning pointer to the last node (`tail : *mut Node<T>`).

The shallow embedding below models the heap explicitly: a heap is a partial
map from addresses (`Nat`) to nodes, allocation hands out fresh addresses from
a counter, `Box<Node<T>>` resp. `*mut Node<T>` become optional addresses
(`none` models `None` resp. the null pointer).  `push` and `pop` are literal
transcriptions of `List::push` and `List::pop` from the source, including the
raw-pointer write through `tail` and the freeing of the popped box.
-/

namespace Fifth

/-- `struct Node<T> { elem: T, next: Link<T> }`; the `next` box is an address
into the heap, `none` modelling `None`. -/
structure Node (T : Type) where
  elem : T
  next : Option Nat

/-- `pub struct List<T> { head: Link<T>, tail: *mut Node<T> }`.
The embedding carries the heap of live nodes and a fresh-address counter
(`alloc`); `tail = none` models the null pointer. -/
structure RustList (T : Type) where
  heap : Nat → Option (Node T)
  alloc : Nat
  head : Option Nat
  tail : Option Nat

/-- `List::new()`: empty heap, `head: None`, `tail: ptr::null_mut()`. -/
def new {T : Type} : RustList T :=
  { heap := fun _ => none, alloc := 0, head := none, tail := none }

/-- `List::push(&mut self, elem: T)`.  A fresh node `{elem, next: None}` is
allocated at the fresh address `s.alloc` (the captured `raw_tail`).  If the
old tail pointer is non-null, the write `(*self.tail).next = Some(new_tail)`
is performed through it (a write to an unallocated address is dropped, which
can only happen in states unreachable in the safe API); otherwise the new
node becomes the head.  Finally `self.tail = raw_tail`. -/
def push {T : Type} (s : RustList T) (elem : T) : RustList T :=
  let rawTail : Nat := s.alloc
  let newTail : Node T := { elem := elem, next := none }
  let heap1 : Nat → Option (Node T) :=
    fun x => if x = rawTail then some newTail else s.heap x
  match s.tail with
  | some t =>
      { heap := fun x =>
          if x = t then (heap1 t).map (fun n => { n with next := some rawTail })
          else heap1 x,
        alloc := rawTail + 1,
        head := s.head,
        tail := some rawTail }
  | none =>
      { heap := heap1,
        alloc := rawTail + 1,
        head := some rawTail,
        tail := some rawTail }

/-- `List::pop(&mut self) -> Option<T>`.  Takes the head box; on `Some`, the
box is consumed (its heap cell is freed), `self.head` becomes the node's
`next`, and if the new head is `None` the tail pointer is reset to null.
A head pointing at an unallocated address (impossible in reachable states,
as the invariant below proves) leaves the state unchanged. -/
def pop {T : Type} (s : RustList T) : Option T × RustList T :=
  match s.head with
  | none => (none, s)
  | some h =>
      match s.heap h with
      | none => (none, s)
      | some node =>
          let head' := node.next
          (some node.elem,
            { heap := fun x => if x = h then none else s.heap x,
              alloc := s.alloc,
              head := head',
              tail := if head' = none then none else s.tail })

/-- The two public operations, for describing operation sequences. -/
inductive Op (T : Type) where
  | push (v : T) : Op T
  | pop : Op T

/-- Run a sequence of operations on a concrete queue, collecting the result
of every `pop` in order. -/
def run {T : Type} : RustList T → List (Op T) → RustList T × List (Option T)
  | s, [] => (s, [])
  | s, Op.push v :: ops => run (push s v) ops
  | s, Op.pop :: ops =>
      let p := pop s
      let r := run p.2 ops
      (r.1, p.1 :: r.2)

/-- The chain predicate: `Chain heap a as es t` says that starting at address
`a` and following `next` links one traverses exactly the addresses `as`,
reading the elements `es`, and stops at the node at address `t`, whose `next`
link is `none`.  The derivation being finite, such a traversal terminates. -/
inductive Chain {T : Type} (heap : Nat → Option (Node T)) :
    Nat → List Nat → List T → Nat → Prop where
  | last {a : Nat} {e : T} (ha : heap a = some { elem := e, next := none }) :
      Chain heap a [a] [e] a
  | cons {a b t : Nat} {e : T} {as : List Nat} {es : List T}
      (ha : heap a = some { elem := e, next := some b })
      (hc : Chain heap b as es t) :
      Chain heap a (a :: as) (e :: es) t

/-- The representation invariant relating a queue state to its abstract
contents `es`: every live address is below the allocation counter, and either
the queue is empty (`head`, `tail` both null, no contents) or `head` and
`tail` are non-null and the heap chain from `head` to `tail` carries exactly
`es`. -/
def Inv {T : Type} (s : RustList T) (es : List T) : Prop :=
  (∀ x n, s.heap x = some n → x < s.alloc) ∧
  ((s.head = none ∧ s.tail = none ∧ es = []) ∨
    (∃ h t as, s.head = some h ∧ s.tail = some t ∧ Chain s.heap h as es t))

/-- The naive functional model the implementation refines: the queue is a
plain list, insertion appends at the back, removal takes the front. -/
def modelRun {T : Type} : List T → List (Op T) → List T × List (Option T)
  | l, [] => (l, [])
  | l, Op.push v :: ops => modelRun (l ++ [v]) ops
  | l, Op.pop :: ops =>
      let r := modelRun l.tail ops
      (r.1, l.head? :: r.2)

/-- Interleaved schedules with distinguishable elements: a Boolean schedule
(`true` = insert, `false` = remove) is turned into an operation sequence in
which the k-th insertion (counting from `k0`) inserts the token `k0 + k`, so
that "A was inserted before B" is exactly "A < B" as tokens. -/
def labelOps : List Bool → Nat → List (Op Nat)
  | [], _ => []
  | true :: bs, k => Op.push k :: labelOps bs (k + 1)
  | false :: bs, k => Op.pop :: labelOps bs k

/-! ## Chain lemmas -/

theorem Chain.elems_ne_nil {T : Type} {heap : Nat → Option (Node T)}
    {a t : Nat} {as : List Nat} {es : List T}
    (hc : Chain heap a as es t) : es ≠ [] := by
  cases hc <;> simp

theorem Chain.head_mem {T : Type} {heap : Nat → Option (Node T)}
    {a t : Nat} {as : List Nat} {es : List T}
    (hc : Chain heap a as es t) : a ∈ as := by
  cases hc <;> simp

theorem Chain.mem_heap {T : Type} {heap : Nat → Option (Node T)}
    {a t : Nat} {as : List Nat} {es : List T}
    (hc : Chain heap a as es t) : ∀ x ∈ as, ∃ n, heap x = some n := by
  induction hc with
  | last ha => intro x hx; simp at hx; subst hx; exact ⟨_, ha⟩
  | cons ha _ ih =>
      intro x hx
      rcases List.mem_cons.mp hx with rfl | hx
      · exact ⟨_, ha⟩
      · exact ih x hx

theorem Chain.tail_mem {T : Type} {heap : Nat → Option (Node T)}
    {a t : Nat} {as : List Nat} {es : List T}
    (hc : Chain heap a as es t) : t ∈ as := by
  induction hc with
  | last _ => simp
  | cons _ _ ih => exact List.mem_cons_of_mem _ ih

theorem Chain.tail_last {T : Type} {heap : Nat → Option (Node T)}
    {a t : Nat} {as : List Nat} {es : List T}
    (hc : Chain heap a as es t) : ∃ e, heap t = some { elem := e, next := none } := by
  induction hc with
  | last ha => exact ⟨_, ha⟩
  | cons _ _ ih => exact ih

/-- The chain out of a given address is determined by the heap. -/
theorem Chain.det {T : Type} {heap : Nat → Option (Node T)}
    {a t t' : Nat} {as as' : List Nat} {es es' : List T}
    (hc : Chain heap a as es t) (hc' : Chain heap a as' es' t') :
    as = as' ∧ es = es' ∧ t = t' := by
  induction hc generalizing as' es' t' with
  | last ha =>
      cases hc' with
      | last ha' => rw [ha] at ha'; cases ha'; exact ⟨rfl, rfl, rfl⟩
      | cons ha' hc' => rw [ha] at ha'; simp at ha'
  | cons ha hc ih =>
      cases hc' with
      | last ha' => rw [ha] at ha'; simp at ha'
      | cons ha' hc' =>
          rw [ha] at ha'
          injection ha' with ha'
          cases ha'
          obtain ⟨h1, h2, h3⟩ := ih hc'
          exact ⟨by rw [h1], by rw [h2], h3⟩

/-- Every address on a chain starts a chain of its own, no longer than the
original, with the same final node. -/
theorem Chain.mem_suffix {T : Type} {heap : Nat → Option (Node T)}
    {a t x : Nat} {as : List Nat} {es : List T}
    (hc : Chain heap a as es t) (hx : x ∈ as) :
    ∃ as₂ es₂, Chain heap x as₂ es₂ t ∧ as₂.length ≤ as.length := by
  induction hc with
  | last ha =>
      simp at hx; subst hx
      exact ⟨_, _, Chain.last ha, le_refl _⟩
  | cons ha hc ih =>
      rcases List.mem_cons.mp hx with rfl | hx
      · exact ⟨_, _, Chain.cons ha hc, le_refl _⟩
      · obtain ⟨as₂, es₂, hc₂, hlen⟩ := ih hx
        exact ⟨as₂, es₂, hc₂, Nat.le_succ_of_le hlen⟩

/-- A node pointing into a chain does not itself lie on that chain. -/
theorem Chain.no_back {T : Type} {heap : Nat → Option (Node T)}
    {h b t : Nat} {e : T} {as : List Nat} {es : List T}
    (hh : heap h = some { elem := e, next := some b })
    (hc : Chain heap b as es t) : h ∉ as := by
  intro hmem
  obtain ⟨as₂, es₂, hc₂, hlen⟩ := hc.mem_suffix hmem
  cases hc₂ with
  | last ha => rw [hh] at ha; simp at ha
  | cons ha hc₃ =>
      rw [hh] at ha
      injection ha with ha
      cases ha
      obtain ⟨h1, _, _⟩ := hc.det hc₃
      subst h1
      simp at hlen

/-- The addresses of a chain are pairwise distinct: the chain is a finite
simple path. -/
theorem Chain.nodup {T : Type} {heap : Nat → Option (Node T)}
    {a t : Nat} {as : List Nat} {es : List T}
    (hc : Chain heap a as es t) : as.Nodup := by
  induction hc with
  | last _ => simp
  | cons ha hc ih => exact List.nodup_cons.mpr ⟨Chain.no_back ha hc, ih⟩

/-- A chain only depends on the heap at its own addresses. -/
theorem Chain.congr {T : Type} {heap heap' : Nat → Option (Node T)}
    {a t : Nat} {as : List Nat} {es : List T}
    (hagree : ∀ x ∈ as, heap' x = heap x)
    (hc : Chain heap a as es t) : Chain heap' a as es t := by
  induction hc with
  | last ha =>
      exact Chain.last (by rw [hagree _ (by simp)]; exact ha)
  | cons ha hc ih =>
      exact Chain.cons (by rw [hagree _ (by simp)]; exact ha)
        (ih fun x hx => hagree x (List.mem_cons_of_mem _ hx))

/-- Appending a fresh node at the tail: the core of `push` on a non-empty
queue.  `heap'` holds the old tail node redirected to the fresh address `a'`
and the new node `{v, next: None}` at `a'`; everything else on the chain is
untouched. -/
theorem Chain.snoc {T : Type} {heap heap' : Nat → Option (Node T)}
    {h t a' : Nat} {v : T} {as : List Nat} {es : List T}
    (hc : Chain heap h as es t)
    (hfresh : ∀ x ∈ as, x ≠ a')
    (hmid : ∀ x ∈ as, x ≠ t → heap' x = heap x)
    (htl : ∀ e, heap t = some { elem := e, next := none } →
      heap' t = some { elem := e, next := some a' })
    (ha' : heap' a' = some { elem := v, next := none }) :
    Chain heap' h (as ++ [a']) (es ++ [v]) a' := by
  induction hc with
  | last ha =>
      exact Chain.cons (htl _ ha) (Chain.last ha')
  | cons ha hc ih =>
      rename_i a b t' e as' es'
      have hat : a ≠ t' := by
        intro heq
        obtain ⟨e', he'⟩ := hc.tail_last
        rw [heq, he'] at ha
        simp at ha
      have ha2 : heap' a = some { elem := e, next := some b } := by
        rw [hmid a (by simp) hat]; exact ha
      exact Chain.cons ha2
        (ih (fun x hx => hfresh x (List.mem_cons_of_mem _ hx))
          (fun x hx => hmid x (List.mem_cons_of_mem _ hx)) htl)

/-! ## Unfolding lemmas for `push` and `pop` -/

theorem push_tail_none {T : Type} {s : RustList T} (v : T) (ht : s.tail = none) :
    push s v =
      { heap := fun x => if x = s.alloc then some { elem := v, next := none } else s.heap x,
        alloc := s.alloc + 1,
        head := some s.alloc,
        tail := some s.alloc } := by
  simp only [push, ht]

theorem push_tail_some {T : Type} {s : RustList T} (v : T) {t : Nat}
    (ht : s.tail = some t) :
    push s v =
      { heap := fun x =>
          if x = t then
            ((if t = s.alloc then some { elem := v, next := none } else s.heap t).map
              (fun n => { n with next := some s.alloc }))
          else if x = s.alloc then some { elem := v, next := none } else s.heap x,
        alloc := s.alloc + 1,
        head := s.head,
        tail := some s.alloc } := by
  simp only [push, ht]

theorem pop_head_none {T : Type} {s : RustList T} (hh : s.head = none) :
    pop s = (none, s) := by
  simp only [pop, hh]

theorem pop_head_some {T : Type} {s : RustList T} {h0 : Nat} {node : Node T}
    (hh : s.head = some h0) (hn : s.heap h0 = some node) :
    pop s =
      (some node.elem,
        { heap := fun x => if x = h0 then none else s.heap x,
          alloc := s.alloc,
          head := node.next,
          tail := if node.next = none then none else s.tail }) := by
  simp only [pop, hh, hn]

/-! ## Invariant preservation -/

theorem inv_new {T : Type} : Inv (new : RustList T) [] := by
  refine ⟨fun x n h => by simp [new] at h, Or.inl ⟨rfl, rfl, rfl⟩⟩

theorem inv_push {T : Type} {s : RustList T} {es : List T} (v : T)
    (h : Inv s es) : Inv (push s v) (es ++ [v]) := by
  obtain ⟨hbound, hwf⟩ := h
  rcases hwf with ⟨hh, ht, he⟩ | ⟨h0, t, as, hh, ht, hchain⟩
  · subst he
    rw [push_tail_none v ht]
    constructor
    · intro x n hx
      by_cases hxa : x = s.alloc
      · subst hxa; exact Nat.lt_succ_self _
      · simp only [if_neg hxa] at hx
        exact Nat.lt_succ_of_lt (hbound x n hx)
    · refine Or.inr ⟨s.alloc, s.alloc, [s.alloc], rfl, rfl, ?_⟩
      exact Chain.last (by simp)
  · rw [push_tail_some v ht]
    have hfresh : ∀ x ∈ as, x ≠ s.alloc := by
      intro x hx
      obtain ⟨n, hn⟩ := hchain.mem_heap x hx
      exact Nat.ne_of_lt (hbound x n hn)
    have htas : t ∈ as := hchain.tail_mem
    have htne : t ≠ s.alloc := hfresh t htas
    have htlt : t < s.alloc := by
      obtain ⟨n, hn⟩ := hchain.mem_heap t htas
      exact hbound t n hn
    constructor
    · intro x n hx
      by_cases hxt : x = t
      · subst hxt; exact Nat.lt_succ_of_lt htlt
      · simp only [if_neg hxt] at hx
        by_cases hxa : x = s.alloc
        · subst hxa; exact Nat.lt_succ_self _
        · simp only [if_neg hxa] at hx
          exact Nat.lt_succ_of_lt (hbound x n hx)
    · refine Or.inr ⟨h0, s.alloc, as ++ [s.alloc], hh, rfl, ?_⟩
      refine hchain.snoc hfresh ?_ ?_ ?_
      · intro x hx hxt
        simp only [if_neg hxt, if_neg (hfresh x hx)]
      · intro e hte
        simp [if_neg htne, hte]
      · have hat : s.alloc ≠ t := fun heq => htne heq.symm
        simp [if_neg hat]

theorem pop_spec {T : Type} {s : RustList T} {es : List T}
    (h : Inv s es) : (pop s).1 = es.head? ∧ Inv (pop s).2 es.tail := by
  obtain ⟨hbound, hwf⟩ := h
  rcases hwf with ⟨hh, ht, he⟩ | ⟨h0, t, as, hh, ht, hchain⟩
  · subst he
    rw [pop_head_none hh]
    exact ⟨rfl, hbound, Or.inl ⟨hh, ht, rfl⟩⟩
  · cases hchain with
    | last ha =>
        rw [pop_head_some hh ha]
        refine ⟨rfl, ?_, Or.inl ⟨rfl, by simp, rfl⟩⟩
        intro x n hx
        by_cases hx0 : x = h0
        · simp [hx0] at hx
        · simp only [if_neg hx0] at hx
          exact hbound x n hx
    | cons ha hc =>
        rename_i b e as' es'
        rw [pop_head_some hh ha]
        refine ⟨rfl, ?_, ?_⟩
        · intro x n hx
          by_cases hx0 : x = h0
          · simp [hx0] at hx
          · simp only [if_neg hx0] at hx
            exact hbound x n hx
        · refine Or.inr ⟨b, t, as', rfl, by simp [ht], ?_⟩
          refine hc.congr ?_
          intro x hx
          have hxh : x ≠ h0 := fun heq => Chain.no_back ha hc (heq ▸ hx)
          simp only [if_neg hxh]

/-! ## Simulation against the functional model -/

/-- Forward simulation: any operation sequence run on a state related to
abstract contents `es` produces the same outputs as the functional model,
and ends in a state related to the model's final contents. -/
theorem run_model {T : Type} (ops : List (Op T)) (s : RustList T) (es : List T)
    (h : Inv s es) :
    (run s ops).2 = (modelRun es ops).2 ∧
      Inv (run s ops).1 (modelRun es ops).1 := by
  induction ops generalizing s es with
  | nil => exact ⟨rfl, h⟩
  | cons op ops ih =>
      cases op with
      | push v =>
          simp only [run, modelRun]
          exact ih (push s v) (es ++ [v]) (inv_push v h)
      | pop =>
          obtain ⟨h1, h2⟩ := pop_spec h
          obtain ⟨ih1, ih2⟩ := ih (pop s).2 es.tail h2
          simp only [run, modelRun]
          exact ⟨by rw [h1, ih1], ih2⟩

theorem modelRun_pushes {T : Type} (vs : List T) :
    ∀ (l : List T) (ops : List (Op T)),
      modelRun l (vs.map Op.push ++ ops) = modelRun (l ++ vs) ops := by
  induction vs with
  | nil => intro l ops; simp [modelRun]
  | cons v vs ih =>
      intro l ops
      simp only [List.map_cons, List.cons_append, modelRun, List.append_eq]
      rw [ih (l ++ [v]) ops]
      simp

theorem modelRun_drain {T : Type} :
    ∀ l : List T, (modelRun l (List.replicate l.length Op.pop)).2 = l.map some := by
  intro l
  induction l with
  | nil => simp [modelRun]
  | cons e l ih =>
      simp only [List.length_cons, List.replicate_succ, modelRun, List.tail_cons,
        List.head?_cons, List.map_cons]
      rw [ih]

/-! ## The claims -/

/-- C1.  FIFO ordering law: pushing the values of any list `vs` into a fresh
queue and then popping `vs.length` times yields exactly the values of `vs`,
in insertion order, each wrapped in `some`. -/
theorem claim_C1 {T : Type} (vs : List T) :
    (run (new : RustList T) (vs.map Op.push ++ List.replicate vs.length Op.pop)).2 =
      vs.map some := by
  rw [(run_model _ new [] inv_new).1, modelRun_pushes]
  simpa using modelRun_drain vs

/-- C3.  Popping an empty queue (any state whose abstract contents are `[]`,
in particular a freshly constructed one) returns `none` and leaves the state
— head empty, tail null — completely unchanged, so repeated pops keep
returning `none`. -/
theorem claim_C3 {T : Type} (s : RustList T) (h : Inv s []) :
    pop s = (none, s) ∧ s.head = none ∧ s.tail = none := by
  obtain ⟨-, hwf⟩ := h
  rcases hwf with ⟨hh, ht, -⟩ | ⟨h0, t, as, hh, ht, hchain⟩
  · exact ⟨pop_head_none hh, hh, ht⟩
  · exact absurd rfl hchain.elems_ne_nil

theorem claim_C3_witness :
    Inv (new : RustList Nat) [] ∧
      (pop (new : RustList Nat) = (none, new) ∧
        (new : RustList Nat).head = none ∧ (new : RustList Nat).tail = none) :=
  ⟨inv_new, claim_C3 new inv_new⟩

/-- C7.  Reusability after a full drain: any queue whose contents have been
exhausted has a null tail pointer, and a push of `v` followed immediately by
a pop returns `some v` — the value just inserted, never a stale one — and
leaves the queue empty again. -/
theorem claim_C7 {T : Type} (s : RustList T) (v : T) (h : Inv s []) :
    s.tail = none ∧ (pop (push s v)).1 = some v ∧ Inv (pop (push s v)).2 [] := by
  have ht : s.tail = none := by
    obtain ⟨-, hwf⟩ := h
    rcases hwf with ⟨-, ht, -⟩ | ⟨h0, t, as, hh, ht, hchain⟩
    · exact ht
    · exact absurd rfl hchain.elems_ne_nil
  have hp : Inv (push s v) [v] := inv_push v h
  obtain ⟨h1, h2⟩ := pop_spec hp
  exact ⟨ht, h1, h2⟩

theorem claim_C7_witness :
    Inv (pop (push (new : RustList Nat) 10)).2 [] ∧
      ((pop (push (new : RustList Nat) 10)).2.tail = none ∧
        (pop (push (pop (push (new : RustList Nat) 10)).2 20)).1 = some 20 ∧
        Inv (pop (push (pop (push (new : RustList Nat) 10)).2 20)).2 []) :=
  ⟨(pop_spec (inv_push 10 inv_new)).2,
    claim_C7 (pop (push (new : RustList Nat) 10)).2 20
      ((pop_spec (inv_push 10 inv_new)).2)⟩

/-- In any state satisfying the representation invariant, head emptiness and
tail nullity each coincide with emptiness of the abstract contents. -/
theorem inv_empty_iff {T : Type} {s : RustList T} {es : List T} (h : Inv s es) :
    (s.head = none ↔ es = []) ∧ (s.tail = none ↔ es = []) := by
  obtain ⟨-, hwf⟩ := h
  rcases hwf with ⟨hh, ht, he⟩ | ⟨h0, t, as, hh, ht, hchain⟩
  · subst he
    simp [hh, ht]
  · simp [hh, ht, hchain.elems_ne_nil]

/-- C2.  Emptiness invariant: in every state reachable from `new` by pushes
and pops, the queue has well-defined abstract contents, the head reference is
`none` exactly when those contents are empty, and the tail pointer is null
exactly when those contents are empty.  (In particular head and tail become
empty in lockstep: a pop that empties the head also nulls the tail.) -/
theorem claim_C2 {T : Type} (ops : List (Op T)) :
    ∃ es, Inv (run (new : RustList T) ops).1 es ∧
      ((run (new : RustList T) ops).1.head = none ↔ es = []) ∧
      ((run (new : RustList T) ops).1.tail = none ↔ es = []) := by
  have h := (run_model ops new [] inv_new).2
  exact ⟨_, h, inv_empty_iff h⟩

/-- C4.  Chain-shape invariant: in every reachable state with a non-empty
head, following `next` links from the head address traverses a finite,
duplicate-free list of addresses ending exactly at the address the tail
pointer holds, and the tail node's `next` link is `none`. -/
theorem claim_C4 {T : Type} (ops : List (Op T))
    (hne : (run (new : RustList T) ops).1.head ≠ none) :
    ∃ h0 t as es, (run (new : RustList T) ops).1.head = some h0 ∧
      (run (new : RustList T) ops).1.tail = some t ∧
      Chain (run (new : RustList T) ops).1.heap h0 as es t ∧
      as.Nodup ∧
      (∃ e, (run (new : RustList T) ops).1.heap t =
        some { elem := e, next := none }) := by
  obtain ⟨-, hwf⟩ := (run_model ops new [] inv_new).2
  rcases hwf with ⟨hh, -, -⟩ | ⟨h0, t, as, hh, ht, hchain⟩
  · exact absurd hh hne
  · exact ⟨h0, t, as, _, hh, ht, hchain, hchain.nodup, hchain.tail_last⟩

theorem claim_C4_witness :
    (run (new : RustList Nat) [Op.push 1]).1.head ≠ none ∧
      (∃ h0 t as es, (run (new : RustList Nat) [Op.push 1]).1.head = some h0 ∧
        (run (new : RustList Nat) [Op.push 1]).1.tail = some t ∧
        Chain (run (new : RustList Nat) [Op.push 1]).1.heap h0 as es t ∧
        as.Nodup ∧
        (∃ e, (run (new : RustList Nat) [Op.push 1]).1.heap t =
          some { elem := e, next := none })) :=
  ⟨by decide, claim_C4 [Op.push 1] (by decide)⟩

/-- C5.  Postcondition of `push`: the tail pointer now references the freshly
allocated node, that node holds the pushed value with an empty `next` link;
if the queue was empty the new node became the head, otherwise the head is
unchanged and the new node was attached as the `next` link of the node the
tail pointer previously referenced; the abstract contents are the old ones
with the value appended (so previously stored elements are unchanged). -/
theorem claim_C5 {T : Type} (s : RustList T) (es : List T) (v : T) (h : Inv s es) :
    (push s v).tail = some s.alloc ∧
    (push s v).heap s.alloc = some { elem := v, next := none } ∧
    (es = [] → (push s v).head = some s.alloc) ∧
    (es ≠ [] → (push s v).head = s.head ∧
      ∃ t n, s.tail = some t ∧ s.heap t = some n ∧
        (push s v).heap t = some { elem := n.elem, next := some s.alloc }) ∧
    Inv (push s v) (es ++ [v]) := by
  obtain ⟨hbound, hwf⟩ := h
  rcases hwf with ⟨hh, ht, he⟩ | ⟨h0, t, as, hh, ht, hchain⟩
  · subst he
    rw [push_tail_none v ht]
    exact ⟨rfl, by simp, fun _ => rfl, fun hne => absurd rfl hne,
      by rw [← push_tail_none v ht]
         exact inv_push v ⟨hbound, Or.inl ⟨hh, ht, rfl⟩⟩⟩
  · have htlt : t < s.alloc := by
      obtain ⟨n, hn⟩ := hchain.mem_heap t hchain.tail_mem
      exact hbound t n hn
    have htne : t ≠ s.alloc := Nat.ne_of_lt htlt
    have hane : s.alloc ≠ t := fun heq => htne heq.symm
    obtain ⟨e, hte⟩ := hchain.tail_last
    rw [push_tail_some v ht]
    refine ⟨rfl, by simp [if_neg hane], ?_, ?_, ?_⟩
    · intro he
      exact absurd he hchain.elems_ne_nil
    · intro _
      refine ⟨rfl, t, { elem := e, next := none }, ht, hte, ?_⟩
      simp [if_neg htne, hte]
    · rw [← push_tail_some v ht]
      exact inv_push v ⟨hbound, Or.inr ⟨h0, t, as, hh, ht, hchain⟩⟩

theorem claim_C5_witness :
    Inv (new : RustList Nat) [] ∧
      ((push (new : RustList Nat) 5).tail = some (new : RustList Nat).alloc ∧
      (push (new : RustList Nat) 5).heap (new : RustList Nat).alloc =
        some { elem := 5, next := none } ∧
      (([] : List Nat) = [] →
        (push (new : RustList Nat) 5).head = some (new : RustList Nat).alloc) ∧
      (([] : List Nat) ≠ [] → (push (new : RustList Nat) 5).head = (new : RustList Nat).head ∧
        ∃ t n, (new : RustList Nat).tail = some t ∧ (new : RustList Nat).heap t = some n ∧
          (push (new : RustList Nat) 5).heap t =
            some { elem := n.elem, next := some (new : RustList Nat).alloc }) ∧
      Inv (push (new : RustList Nat) 5) ([] ++ [5])) :=
  ⟨inv_new, claim_C5 new [] 5 inv_new⟩

/-- C6.  Frame property of `pop` on a queue with more than one element: the
returned value is the head node's element (the front of the abstract
contents), the head advances to that node's `next` link, the tail pointer is
unchanged, the queue stays non-empty, and the remaining contents are the old
ones minus the front. -/
theorem claim_C6 {T : Type} (s : RustList T) (es : List T) (h : Inv s es)
    (hlen : 1 < es.length) :
    ∃ h0 n, s.head = some h0 ∧ s.heap h0 = some n ∧
      (pop s).1 = some n.elem ∧ (pop s).1 = es.head? ∧
      (pop s).2.head = n.next ∧ (pop s).2.tail = s.tail ∧
      (pop s).2.head ≠ none ∧ Inv (pop s).2 es.tail := by
  have hinv := pop_spec h
  obtain ⟨hbound, hwf⟩ := h
  rcases hwf with ⟨hh, ht, he⟩ | ⟨h0, t, as, hh, ht, hchain⟩
  · subst he; simp at hlen
  · cases hchain with
    | last ha =>
        simp at hlen
    | cons ha hc =>
        rename_i b e as' es'
        refine ⟨h0, { elem := e, next := some b }, hh, ha, ?_⟩
        rw [pop_head_some hh ha]
        rw [pop_head_some hh ha] at hinv
        refine ⟨rfl, hinv.1, rfl, by simp, by simp, hinv.2⟩

theorem claim_C6_witness :
    Inv (push (push (new : RustList Nat) 1) 2) [1, 2] ∧ 1 < ([1, 2] : List Nat).length ∧
      (∃ h0 n, (push (push (new : RustList Nat) 1) 2).head = some h0 ∧
        (push (push (new : RustList Nat) 1) 2).heap h0 = some n ∧
        (pop (push (push (new : RustList Nat) 1) 2)).1 = some n.elem ∧
        (pop (push (push (new : RustList Nat) 1) 2)).1 = ([1, 2] : List Nat).head? ∧
        (pop (push (push (new : RustList Nat) 1) 2)).2.head = n.next ∧
        (pop (push (push (new : RustList Nat) 1) 2)).2.tail =
          (push (push (new : RustList Nat) 1) 2).tail ∧
        (pop (push (push (new : RustList Nat) 1) 2)).2.head ≠ none ∧
        Inv (pop (push (push (new : RustList Nat) 1) 2)).2 ([1, 2] : List Nat).tail) :=
  ⟨inv_push 2 (inv_push 1 inv_new), by decide,
    claim_C6 (push (push (new : RustList Nat) 1) 2) [1, 2]
      (inv_push 2 (inv_push 1 inv_new)) (by decide)⟩

/-- C9.  The concrete scenario of the source's `test::basics`:
`push 1; push 2; push 3; pop=1; pop=2; push 4; push 5; pop=3; pop=4; pop=5;
pop=none`. -/
theorem claim_C9 :
    (run (new : RustList Nat)
      [Op.push 1, Op.push 2, Op.push 3, Op.pop, Op.pop,
       Op.push 4, Op.push 5, Op.pop, Op.pop, Op.pop, Op.pop]).2 =
    [some 1, some 2, some 3, some 4, some 5, none] := by
  decide

/-- On the functional model: starting from contents `range' p c` (tokens
`p, …, p+c-1`) and running a labelled schedule whose next token is `p + c`,
the successful removals are a contiguous run of tokens starting at `p`. -/
theorem modelRun_label (bs : List Bool) :
    ∀ p c : Nat, ∃ m,
      (modelRun (List.range' p c) (labelOps bs (p + c))).2.filterMap id =
        List.range' p m := by
  induction bs with
  | nil => intro p c; exact ⟨0, by simp [modelRun, labelOps]⟩
  | cons b bs ih =>
      intro p c
      cases b with
      | true =>
          simp only [labelOps, modelRun]
          obtain ⟨m, hm⟩ := ih p (c + 1)
          refine ⟨m, ?_⟩
          rw [← hm]
          have h1 : List.range' p c ++ [p + c] = List.range' p (c + 1) := by
            simp [List.range'_concat]
          have h2 : p + c + 1 = p + (c + 1) := by omega
          rw [h1, h2]
      | false =>
          cases c with
          | zero =>
              simp only [labelOps, modelRun, Nat.add_zero, List.range']
              obtain ⟨m, hm⟩ := ih p 0
              refine ⟨m, ?_⟩
              simp only [List.filterMap_cons, List.head?_nil, List.tail_nil]
              simpa [Nat.add_zero] using hm
          | succ c =>
              have hr : List.range' p (c + 1) = p :: List.range' (p + 1) c := by
                simp [List.range'_succ]
              simp only [labelOps, modelRun, hr, List.head?_cons, List.tail_cons,
                List.filterMap_cons, id]
              obtain ⟨m, hm⟩ := ih (p + 1) c
              refine ⟨m + 1, ?_⟩
              have h2 : p + 1 + c = p + (c + 1) := by omega
              rw [h2] at hm
              rw [hm]
              simp [List.range'_succ]

/-- C8.  Interleaved FIFO preservation: run any interleaved schedule of
pushes and pops from a fresh queue, pushing pairwise distinct tokens in
increasing order (`labelOps`, so token `a` was inserted before token `b` iff
`a < b`).  The successful pop results are exactly `0, 1, …, m-1` in that
order: removals happen in insertion order, so a pop never returns a token
while an earlier-inserted one is still present, and whenever `b` has been
removed every earlier-inserted `a` has been removed too. -/
theorem claim_C8 (bs : List Bool) :
    ∃ m, ((run (new : RustList Nat) (labelOps bs 0)).2.filterMap id = List.range m) ∧
      (∀ a b : Nat, a < b →
        some b ∈ (run (new : RustList Nat) (labelOps bs 0)).2 →
        some a ∈ (run (new : RustList Nat) (labelOps bs 0)).2) := by
  have hsim := (run_model (labelOps bs 0) new [] inv_new).1
  obtain ⟨m, hm⟩ := modelRun_label bs 0 0
  have hm0 : (run (new : RustList Nat) (labelOps bs 0)).2.filterMap id =
      List.range m := by
    rw [hsim]
    simpa [List.range_eq_range'] using hm
  refine ⟨m, hm0, ?_⟩
  intro a b hab hb
  have hmemb : b ∈ (run (new : RustList Nat) (labelOps bs 0)).2.filterMap id := by
    exact List.mem_filterMap.mpr ⟨some b, hb, rfl⟩
  rw [hm0] at hmemb
  have hblt : b < m := List.mem_range.mp hmemb
  have hmema : a ∈ List.range m := List.mem_range.mpr (lt_trans hab hblt)
  rw [← hm0] at hmema
  obtain ⟨o, ho, hoa⟩ := List.mem_filterMap.mp hmema
  cases o with
  | none => simp at hoa
  | some x => simp at hoa; subst hoa; exact ho

/-- C10.  Refinement: for every operation sequence, the pointer-based
implementation run from `new` produces exactly the outputs of the naive
functional model (queue = list, push = append at back, pop = take front)
run from `[]`. -/
theorem claim_C10 {T : Type} (ops : List (Op T)) :
    (run (new : RustList T) ops).2 = (modelRun [] ops).2 :=
  (run_model ops new [] inv_new).1

end Fifth
